import Mathlib

/-!
Formal model of the in-network ML deployment core: the feature quantizer
(quantize_features in src/prepare_data.py) and the decision-tree-to-pipeline
compiler described in the design document.  Real arithmetic of the source is
modelled exactly over the rationals; the cast astype(int) of numpy is
truncation toward zero; non-finite cells (NaN and infinities, which the
source replaces by 0 before any bound computation) are modelled as none.
-/

/-- Truncation toward zero: the rounding performed by astype(int) on floats. -/
def truncTowardZero (q : ℚ) : ℤ := if 0 ≤ q then ⌊q⌋ else ⌈q⌉

/-- Final clip(0, max_val) of each column (prepare_data.py line 86). -/
def clipQ (bits : ℕ) (z : ℤ) : ℤ := max 0 (min z (2 ^ bits - 1))

/-- The scaled integer the source assigns to a cell before clipping:
the affine min-max scaling of line 83 when the column is non-degenerate,
the constant 0 of line 85 otherwise. -/
def scaleCell (bits : ℕ) (m M v : ℚ) : ℤ :=
  if M > m then truncTowardZero ((v - m) / (M - m) * ((2 ^ bits - 1 : ℤ) : ℚ)) else 0

/-- Quantization of one cell against fitted column bounds: scale then clip. -/
def quantizeCell (bits : ℕ) (m M v : ℚ) : ℤ := clipQ bits (scaleCell bits m M v)

/-- fillna(0) and replace(inf, 0) (lines 77 and 78): every non-finite cell
becomes 0 before bounds are computed. -/
def sanitize (col : List (Option ℚ)) : List ℚ := col.map fun c => c.getD 0

/-- Minimum of a column, as Series.min: none on an empty column. -/
def listMin : List ℚ → Option ℚ
  | [] => none
  | x :: xs => some (xs.foldl min x)

/-- Maximum of a column, as Series.max: none on an empty column. -/
def listMax : List ℚ → Option ℚ
  | [] => none
  | x :: xs => some (xs.foldl max x)

/-- The bounds quantize_features fits at line 81: the min and max of the
column after non-finite values were replaced by 0. -/
def fitBounds (col : List (Option ℚ)) : Option ℚ × Option ℚ :=
  (listMin (sanitize col), listMax (sanitize col))

/-- One column of quantize_features (lines 80 to 86): sanitize, fit bounds,
scale every cell, clip into the quantized domain.  An empty column stays
empty (the scalar assignment of line 85 broadcast over zero rows). -/
def quantizeColumn (bits : ℕ) (col : List (Option ℚ)) : List ℤ :=
  match fitBounds col with
  | (some m, some M) => (sanitize col).map (quantizeCell bits m M)
  | _ => (sanitize col).map fun _ => clipQ bits 0

/-- Modelled from the spec: the finite values of a column, which the spec
says are the only ones entering the bound computation of fit. -/
def finiteVals (col : List (Option ℚ)) : List ℚ := col.filterMap id

/-- Modelled from the spec: transform as worded in the design document,
affine scaling rounded toward zero then clamped into the quantized domain. -/
def transformSpec (bits : ℕ) (m M v : ℚ) : ℤ :=
  min (max (truncTowardZero ((v - m) / (M - m) * ((2 ^ bits - 1 : ℤ) : ℚ))) 0)
    (2 ^ bits - 1)

lemma two_pow_sub_one_nonneg (bits : ℕ) : (0 : ℤ) ≤ 2 ^ bits - 1 := by
  have h := pow_pos (by norm_num : (0 : ℤ) < 2) bits
  omega

lemma clipQ_nonneg (bits : ℕ) (z : ℤ) : 0 ≤ clipQ bits z := le_max_left _ _

lemma clipQ_le (bits : ℕ) (z : ℤ) : clipQ bits z ≤ 2 ^ bits - 1 :=
  max_le (two_pow_sub_one_nonneg bits) (min_le_right _ _)

lemma clipQ_zero (bits : ℕ) : clipQ bits 0 = 0 := by
  rw [clipQ, min_eq_left (two_pow_sub_one_nonneg bits), max_self]

lemma quantizeCell_self (bits : ℕ) (m v : ℚ) : quantizeCell bits m m v = 0 := by
  simp [quantizeCell, scaleCell, clipQ_zero]

lemma quantizeCell_min (bits : ℕ) (m M : ℚ) (h : m < M) :
    quantizeCell bits m M m = 0 := by
  rw [quantizeCell, scaleCell, if_pos h, sub_self, zero_div, zero_mul]
  have h0 : truncTowardZero 0 = 0 := by simp [truncTowardZero]
  rw [h0, clipQ_zero]

lemma quantizeCell_max (bits : ℕ) (m M : ℚ) (h : m < M) :
    quantizeCell bits m M M = 2 ^ bits - 1 := by
  have hc := two_pow_sub_one_nonneg bits
  have hne : M - m ≠ 0 := sub_ne_zero.mpr h.ne'
  rw [quantizeCell, scaleCell, if_pos h, div_self hne, one_mul]
  have ht : truncTowardZero ((2 ^ bits - 1 : ℤ) : ℚ) = 2 ^ bits - 1 := by
    rw [truncTowardZero, if_pos (by exact_mod_cast hc), Int.floor_intCast]
  rw [ht, clipQ, min_self, max_eq_right hc]

/-- C3: for every input value and valid bounds, the quantized output lies
within the domain of the configured bit width, whether or not the value lies
inside the fitted bounds. -/
theorem claim_transform_range (bits : ℕ) (m M v : ℚ) (h : m ≤ M) :
    0 ≤ quantizeCell bits m M v ∧ quantizeCell bits m M v ≤ 2 ^ bits - 1 :=
  ⟨clipQ_nonneg bits _, clipQ_le bits _⟩

theorem claim_transform_range_wit :
    0 ≤ quantizeCell 8 0 10 37 ∧ quantizeCell 8 0 10 37 ≤ 2 ^ 8 - 1 :=
  claim_transform_range 8 0 10 37 (by norm_num)

/-- C4: non-degenerate bounds map the minimum bound to 0 and the maximum
bound to the top of the quantized domain. -/
theorem claim_transform_boundary (bits : ℕ) (m M : ℚ) (h : m < M) :
    quantizeCell bits m M m = 0 ∧ quantizeCell bits m M M = 2 ^ bits - 1 :=
  ⟨quantizeCell_min bits m M h, quantizeCell_max bits m M h⟩

theorem claim_transform_boundary_wit :
    quantizeCell 8 0 10 0 = 0 ∧ quantizeCell 8 0 10 10 = 2 ^ 8 - 1 :=
  claim_transform_boundary 8 0 10 (by norm_num)

/-- C5: degenerate bounds (min equal to max) quantize every value to 0. -/
theorem claim_transform_degenerate (bits : ℕ) (m v : ℚ) :
    quantizeCell bits m m v = 0 :=
  quantizeCell_self bits m v

/-- C8: on non-degenerate bounds the code computes exactly the formula of the
spec: affine scaling, rounding toward zero, clamping into the domain. -/
theorem claim_transform_formula (bits : ℕ) (m M v : ℚ) (h : m < M) :
    quantizeCell bits m M v = transformSpec bits m M v := by
  have hc := two_pow_sub_one_nonneg bits
  rw [quantizeCell, scaleCell, if_pos h, transformSpec, clipQ]
  simp only [min_def, max_def]
  split_ifs <;> omega

theorem claim_transform_formula_wit :
    quantizeCell 8 0 10 25 = transformSpec 8 0 10 25 :=
  claim_transform_formula 8 0 10 25 (by norm_num)

lemma foldl_min_le (l : List ℚ) (a : ℚ) :
    l.foldl min a ≤ a ∧ ∀ x ∈ l, l.foldl min a ≤ x := by
  induction l generalizing a with
  | nil => exact ⟨le_refl a, by simp⟩
  | cons b l ih =>
    refine ⟨(ih (min a b)).1.trans (min_le_left a b), ?_⟩
    intro x hx
    rcases List.mem_cons.mp hx with hx | hx
    · exact hx ▸ (ih (min a b)).1.trans (min_le_right a b)
    · exact (ih (min a b)).2 x hx

lemma le_foldl_max (l : List ℚ) (a : ℚ) :
    a ≤ l.foldl max a ∧ ∀ x ∈ l, x ≤ l.foldl max a := by
  induction l generalizing a with
  | nil => exact ⟨le_refl a, by simp⟩
  | cons b l ih =>
    refine ⟨(le_max_left a b).trans (ih (max a b)).1, ?_⟩
    intro x hx
    rcases List.mem_cons.mp hx with hx | hx
    · exact hx ▸ (le_max_right a b).trans (ih (max a b)).1
    · exact (ih (max a b)).2 x hx

lemma listMin_le (s : List ℚ) (m : ℚ) (hm : listMin s = some m) :
    ∀ x ∈ s, m ≤ x := by
  cases s with
  | nil => simp [listMin] at hm
  | cons a l =>
    simp only [listMin, Option.some.injEq] at hm
    intro x hx
    rcases List.mem_cons.mp hx with hx | hx
    · exact hm ▸ hx ▸ (foldl_min_le l a).1
    · exact hm ▸ (foldl_min_le l a).2 x hx

lemma le_listMax (s : List ℚ) (M : ℚ) (hM : listMax s = some M) :
    ∀ x ∈ s, x ≤ M := by
  cases s with
  | nil => simp [listMax] at hM
  | cons a l =>
    simp only [listMax, Option.some.injEq] at hM
    intro x hx
    rcases List.mem_cons.mp hx with hx | hx
    · exact hM ▸ hx ▸ (le_foldl_max l a).1
    · exact hM ▸ (le_foldl_max l a).2 x hx

lemma foldl_min_replicate (n : ℕ) (a : ℚ) :
    (List.replicate n a).foldl min a = a := by
  induction n with
  | zero => rfl
  | succ k ih => rw [List.replicate_succ, List.foldl_cons, min_self]; exact ih

lemma foldl_max_replicate (n : ℕ) (a : ℚ) :
    (List.replicate n a).foldl max a = a := by
  induction n with
  | zero => rfl
  | succ k ih => rw [List.replicate_succ, List.foldl_cons, max_self]; exact ih

lemma sanitize_allnone :
    ∀ col : List (Option ℚ), (∀ c ∈ col, c = none) →
      sanitize col = List.replicate col.length 0
  | [], _ => rfl
  | a :: l, h => by
    have ha : a = none := h a (by simp)
    have hl := sanitize_allnone l fun c hc => h c (by simp [hc])
    simp only [sanitize, List.map_cons, ha, Option.getD_none, List.length_cons,
      List.replicate_succ]
    exact congrArg (List.cons 0) hl

/-- C6 counterexample: on a column with zero finite values the code raises no
error at all; it silently fits the defaulted bounds (0, 0) and outputs 0. -/
theorem claim_empty_column_counter :
    fitBounds [none] = (some 0, some 0) ∧ quantizeColumn 8 [none] = [0] := by
  constructor <;> rfl

/-- C6 amended: quantization is total; a column with zero finite values is
not surfaced as an error but silently defaulted, every cell becoming 0. -/
theorem claim_empty_column_amended (bits : ℕ) (col : List (Option ℚ))
    (h : ∀ c ∈ col, c = none) :
    quantizeColumn bits col = List.replicate col.length 0 := by
  have hs := sanitize_allnone col h
  cases col with
  | nil => rfl
  | cons a l =>
    have hfit : fitBounds (a :: l) = (some 0, some 0) := by
      rw [fitBounds, hs]
      simp only [List.length_cons, List.replicate_succ, listMin, listMax]
      rw [foldl_min_replicate, foldl_max_replicate]
    rw [quantizeColumn.eq_def, hfit]
    simp only [hs, List.length_cons, List.map_replicate, quantizeCell_self]

theorem claim_empty_column_amended_wit :
    quantizeColumn 8 [none, none] = List.replicate 2 0 :=
  claim_empty_column_amended 8 [none, none] (by simp)

/-- C7 counterexample: the fitted minimum of the column with finite values 5
and 10 and one non-finite cell is 0, not the minimum 5 of the finite values:
the substituted 0 participates in the bound computation. -/
theorem claim_fit_finite_counter :
    fitBounds [some 5, some 10, none] = (some 0, some 10) ∧
    listMin (finiteVals [some 5, some 10, none]) = some 5 ∧
    listMax (finiteVals [some 5, some 10, none]) = some 10 := by
  refine ⟨?_, ?_, ?_⟩ <;> rfl

/-- C7 amended: bounds are fitted over the column with non-finite cells
already replaced by 0, so the substituted 0 lies between the fitted bounds,
and every non-finite row still quantizes, as the quantization of 0. -/
theorem claim_fit_bounds_amended (bits : ℕ) (col : List (Option ℚ)) (m M : ℚ)
    (i : ℕ) (hi : i < col.length) (hnone : col.get ⟨i, hi⟩ = none)
    (hfit : fitBounds col = (some m, some M)) :
    m ≤ 0 ∧ 0 ≤ M ∧ (quantizeColumn bits col).getD i 0 = quantizeCell bits m M 0 := by
  have hmem : (none : Option ℚ) ∈ col := hnone ▸ col.get_mem i hi
  have hmem0 : (0 : ℚ) ∈ sanitize col := by
    simp only [sanitize, List.mem_map]
    exact ⟨none, hmem, rfl⟩
  have h1 : listMin (sanitize col) = some m := by
    have := congrArg Prod.fst hfit
    simpa [fitBounds] using this
  have h2 : listMax (sanitize col) = some M := by
    have := congrArg Prod.snd hfit
    simpa [fitBounds] using this
  refine ⟨listMin_le _ m h1 0 hmem0, le_listMax _ M h2 0 hmem0, ?_⟩
  have hq : quantizeColumn bits col = (sanitize col).map (quantizeCell bits m M) := by
    rw [quantizeColumn.eq_def, hfit]
  have hlen : i < ((sanitize col).map (quantizeCell bits m M)).length := by
    simpa [sanitize] using hi
  rw [hq, List.getD_eq_getElem _ _ hlen, List.getElem_map]
  congr 1
  simp only [sanitize, List.getElem_map]
  have : col[i] = none := by simpa [List.get_eq_getElem] using hnone
  rw [this]
  rfl

theorem claim_fit_bounds_amended_wit :
    (0 : ℚ) ≤ 0 ∧ (0 : ℚ) ≤ 10 ∧
    (quantizeColumn 8 [some 5, some 10, none]).getD 2 0 = quantizeCell 8 0 10 0 :=
  claim_fit_bounds_amended 8 [some 5, some 10, none] 0 10 2 (by norm_num)
    (by rfl) (by rfl)

/-- A DataFrame: named columns of possibly non-finite cells. -/
def Df : Type := List (String × List (Option ℚ))

instance : DecidableEq Df := by
  unfold Df
  infer_instance

/-- fillna(0).replace(inf, 0) applied to a whole frame, producing a fresh
frame whose cells are all finite. -/
def dfSanitize (d : Df) : Df :=
  d.map fun c => (c.1, c.2.map fun x => some (x.getD 0))

/-- The per-column quantization loop applied to a whole frame. -/
def dfQuantize (bits : ℕ) (d : Df) : Df :=
  d.map fun c => (c.1, (quantizeColumn bits c.2).map fun z => some ((z : ℚ)))

/-- The object heap: pandas frames addressed by reference.  Assignments of a
method result rebind a variable to a fresh object (alloc); column
subscript-assignment mutates the referenced object in place (set). -/
structure Heap where
  objs : List Df

def Heap.get (h : Heap) (r : ℕ) : Df := h.objs.getD r []

def Heap.alloc (h : Heap) (d : Df) : Heap × ℕ := (⟨h.objs ++ [d]⟩, h.objs.length)

def Heap.set (h : Heap) (r : ℕ) (d : Df) : Heap := ⟨h.objs.set r d⟩

/-- quantize_features (prepare_data.py lines 70 to 88) against the heap:
X_quant = X.copy() allocates a fresh object; the to_numeric loop writes that
copy in place (cells are modelled already coerced); fillna and replace
rebind X_quant to fresh frames; the per-column quantization loop writes
X_quant in place; X itself is never written. -/
def quantize_features (bits : ℕ) (h : Heap) (xRef : ℕ) : Heap × ℕ :=
  let a1 := h.alloc (h.get xRef)
  let h1 := a1.1
  let q := a1.2
  let h2 := h1.set q (h1.get q)
  let a2 := h2.alloc (dfSanitize (h2.get q))
  let h3 := a2.1
  let q2 := a2.2
  let h4 := h3.set q2 (dfQuantize bits (h3.get q2))
  (h4, q2)

lemma getD_append_lt {α : Type} (l l2 : List α) (d : α) (i : ℕ)
    (h : i < l.length) : (l ++ l2).getD i d = l.getD i d := by
  induction l generalizing i with
  | nil => simp at h
  | cons a t ih =>
    cases i with
    | zero => rfl
    | succ k =>
      simp only [List.cons_append, List.getD_cons_succ]
      exact ih k (by simpa using h)

lemma getD_set_ne {α : Type} (l : List α) (i j : ℕ) (a d : α)
    (h : i ≠ j) : (l.set i a).getD j d = l.getD j d := by
  induction l generalizing i j with
  | nil => simp [List.set]
  | cons b t ih =>
    cases i with
    | zero =>
      cases j with
      | zero => exact absurd rfl h
      | succ k => rfl
    | succ n =>
      cases j with
      | zero => rfl
      | succ k =>
        simp only [List.set_cons_succ, List.getD_cons_succ]
        exact ih n k fun he => h (by rw [he])

/-- C10: quantize_features never mutates its argument: the frame the input
reference denotes is unchanged on the final heap, and the returned reference
is a different object. -/
theorem claim_no_mutation (bits : ℕ) (H : Heap) (xRef : ℕ)
    (h : xRef < H.objs.length) :
    (quantize_features bits H xRef).1.get xRef = H.get xRef ∧
    (quantize_features bits H xRef).2 ≠ xRef := by
  constructor
  · show (((((H.objs ++ [H.get xRef]).set H.objs.length _) ++ [_]).set
      ((H.objs ++ [H.get xRef]).set H.objs.length _).length _).getD xRef []) = _
    rw [getD_set_ne _ _ _ _ _ (by simp; omega)]
    rw [getD_append_lt _ _ _ _ (by simp; omega)]
    rw [getD_set_ne _ _ _ _ _ (by omega)]
    rw [getD_append_lt _ _ _ _ h]
    rfl
  · show ((H.objs ++ [H.get xRef]).set H.objs.length _).length ≠ xRef
    simp only [List.length_set, List.length_append, List.length_singleton]
    omega

theorem claim_no_mutation_wit :
    (quantize_features 8 ⟨[[("sttl", [some 1, none])]]⟩ 0).1.get 0 =
      Heap.get ⟨[[("sttl", [some 1, none])]]⟩ 0 ∧
    (quantize_features 8 ⟨[[("sttl", [some 1, none])]]⟩ 0).2 ≠ 0 :=
  claim_no_mutation 8 ⟨[[("sttl", [some 1, none])]]⟩ 0 (by norm_num)

/-!
The tree-to-pipeline compiler.  The training and code-generation module the
package declares (train_model) is not part of the published sources; the
compiler below follows the design document: breadth-first by depth, nodes of
one depth grouped by feature, the quantized domain partitioned at the sorted
thresholds of each group, one range rule per partition cell per node keyed by
the node identifier, one match-action table per depth, and an action map
collecting the leaves.
-/

/-- Modelled from the spec: a decision tree node, the tagged variant of the
design document (train_model is absent from the sources).  An internal node
routes left when the feature value is at most the threshold. -/
inductive DecisionNode where
  | leaf (id : ℕ) (classLabel : ℕ)
  | internal (id : ℕ) (featureIndex : ℕ) (threshold : ℕ)
      (left : DecisionNode) (right : DecisionNode)
deriving DecidableEq

def nodeId : DecisionNode → ℕ
  | .leaf i _ => i
  | .internal i _ _ _ _ => i

def isInternal : DecisionNode → Bool
  | .leaf _ _ => false
  | .internal _ _ _ _ _ => true

def featOf : DecisionNode → ℕ
  | .leaf _ _ => 0
  | .internal _ f _ _ _ => f

def thrOf : DecisionNode → ℕ
  | .leaf _ _ => 0
  | .internal _ _ t _ _ => t

def leafClass : DecisionNode → ℕ
  | .leaf _ c => c
  | .internal _ _ _ _ _ => 0

/-- Depth of the tree: root to deepest leaf; a lone leaf has depth 0. -/
def depth : DecisionNode → ℕ
  | .leaf _ _ => 0
  | .internal _ _ _ l r => max (depth l) (depth r) + 1

/-- All node identifiers of the tree, one occurrence per node. -/
def allIds : DecisionNode → List ℕ
  | .leaf i _ => [i]
  | .internal i _ _ l r => i :: (allIds l ++ allIds r)

/-- Every internal threshold lies in the quantized domain of the bit width. -/
def thresholdsOkB (bw : ℕ) : DecisionNode → Bool
  | .leaf _ _ => true
  | .internal _ _ t l r =>
      decide (t ≤ 2 ^ bw - 1) && thresholdsOkB bw l && thresholdsOkB bw r

/-- The nodes sitting at one depth of the tree. -/
def nodesAtDepth : DecisionNode → ℕ → List DecisionNode
  | n, 0 => [n]
  | .leaf _ _, _ + 1 => []
  | .internal _ _ _ l r, d + 1 => nodesAtDepth l d ++ nodesAtDepth r d

/-- Well-formed compiler input: identifiers unique over the tree and every
threshold inside the quantized domain. -/
def WFTree (bw : ℕ) (tr : DecisionNode) : Prop :=
  (allIds tr).Nodup ∧ thresholdsOkB bw tr = true

/-- A range rule of a stage table: rows currently at node matchNode whose
value for the feature lies in [low, high] continue to node result. -/
structure RangeRule where
  low : ℕ
  high : ℕ
  matchNode : ℕ
  featureIndex : ℕ
  result : ℕ
deriving DecidableEq

structure MatchActionTable where
  stageIndex : ℕ
  rules : List RangeRule
deriving DecidableEq

structure Pipeline where
  tables : List MatchActionTable
  actionMap : List (ℕ × ℕ)
deriving DecidableEq

inductive CompileError where
  | malformedTree
  | stageBudgetExceeded (depth budget : ℕ)
deriving DecidableEq

/-- Insert into a strictly sorted list, dropping duplicates. -/
def insertUniq (x : ℕ) : List ℕ → List ℕ
  | [] => [x]
  | y :: ys =>
      if x < y then x :: y :: ys
      else if x = y then y :: ys
      else y :: insertUniq x ys

/-- Sort ascending and drop duplicates. -/
def sortDedup (l : List ℕ) : List ℕ := l.foldr insertUniq []

/-- The minimal ordered partition of [lo, maxVal] whose boundaries are the
strictly sorted cut points ts: cells [lo, t1], [t1+1, t2], ..., up to
maxVal; a cut at maxVal leaves no cell above it. -/
def cellsFrom (maxVal : ℕ) : ℕ → List ℕ → List (ℕ × ℕ)
  | lo, [] => if lo ≤ maxVal then [(lo, maxVal)] else []
  | lo, t :: ts => (lo, t) :: cellsFrom maxVal (t + 1) ts

/-- The range rules one internal node contributes, one per partition cell of
its feature group: cells at most the threshold route to the left child,
cells above it to the right child, keyed by the node identifier. -/
def rulesForNode (maxVal : ℕ) (ts : List ℕ) : DecisionNode → List RangeRule
  | .leaf _ _ => []
  | .internal i f t l r =>
      (cellsFrom maxVal 0 ts).map fun c =>
        ⟨c.1, c.2, i, f, if c.2 ≤ t then nodeId l else nodeId r⟩

/-- The internal nodes at one depth: the unresolved decisions of that stage. -/
def internalsAt (tr : DecisionNode) (d : ℕ) : List DecisionNode :=
  (nodesAtDepth tr d).filter isInternal

/-- All range rules of one stage: group the internal nodes of the depth by
feature, partition the domain at each group's sorted thresholds, and emit
each node's rules keyed by its identifier. -/
def rulesAtDepth (maxVal : ℕ) (tr : DecisionNode) (d : ℕ) : List RangeRule :=
  let ins := internalsAt tr d
  ((ins.map featOf).dedup).flatMap fun f =>
    let grp := ins.filter fun n => featOf n == f
    let ts := sortDedup (grp.map thrOf)
    grp.flatMap (rulesForNode maxVal ts)

/-- The action map: every leaf identifier with its class label. -/
def actionMapOf : DecisionNode → List (ℕ × ℕ)
  | .leaf i c => [(i, c)]
  | .internal _ _ _ l r => actionMapOf l ++ actionMapOf r

/-- Modelled from the spec: compile (train_model is absent from the
sources).  Rejects a threshold outside the quantized domain, rejects a tree
deeper than the stage budget reporting the offending depth and the budget,
and otherwise emits one match-action table per depth plus the action map.
A single uniform bit width is used for every feature (the configuration
surface of the design document, default 8). -/
def compile (bw maxStages : ℕ) (tr : DecisionNode) : Except CompileError Pipeline :=
  if thresholdsOkB bw tr = false then .error .malformedTree
  else if maxStages < depth tr then
    .error (.stageBudgetExceeded (depth tr) maxStages)
  else .ok ⟨(List.range (depth tr)).map fun d => ⟨d, rulesAtDepth (2 ^ bw - 1) tr d⟩,
    actionMapOf tr⟩

/-- A rule fires when its matchNode equals the threaded token and the row's
value for the rule's feature lies in the rule's range. -/
def ruleMatches (row : ℕ → ℕ) (token : ℕ) (r : RangeRule) : Bool :=
  r.matchNode == token && decide (r.low ≤ row r.featureIndex) &&
    decide (row r.featureIndex ≤ r.high)

/-- One stage: the first firing rule rewrites the token; a token no rule
matches (a branch already terminated at a leaf) passes through unchanged. -/
def stepTable (row : ℕ → ℕ) (token : ℕ) (t : MatchActionTable) : ℕ :=
  ((t.rules.find? (ruleMatches row token)).map RangeRule.result).getD token

/-- Thread the current-node token through the stage tables in order. -/
def runTables (tables : List MatchActionTable) (row : ℕ → ℕ) (token : ℕ) : ℕ :=
  tables.foldl (stepTable row) token

/-- Run the pipeline on a quantized row: thread the token through every
stage, then resolve it in the action map. -/
def runPipeline (p : Pipeline) (row : ℕ → ℕ) (rootToken : ℕ) : Option ℕ :=
  (p.actionMap.find? fun e => e.1 == runTables p.tables row rootToken).map Prod.snd

/-- Direct evaluation of the decision tree on a quantized row, left on
value at most threshold. -/
def evalTree : DecisionNode → (ℕ → ℕ) → ℕ
  | .leaf _ c, _ => c
  | .internal _ f t l r, row => if row f ≤ t then evalTree l row else evalTree r row

/-- The node reached after following d decisions from the root; a leaf
reached earlier stays. -/
def descend (row : ℕ → ℕ) : ℕ → DecisionNode → DecisionNode
  | 0, n => n
  | _ + 1, .leaf i c => .leaf i c
  | d + 1, .internal _ f t l r => descend row d (if row f ≤ t then l else r)

lemma mem_insertUniq (x a : ℕ) (l : List ℕ) :
    a ∈ insertUniq x l ↔ a = x ∨ a ∈ l := by
  induction l with
  | nil => simp [insertUniq]
  | cons y ys ih =>
    simp only [insertUniq]
    split_ifs with h1 h2
    · simp only [List.mem_cons] <;> tauto
    · subst h2
      simp only [List.mem_cons] <;> tauto
    · simp only [List.mem_cons, ih] <;> tauto

lemma pairwise_insertUniq (x : ℕ) (l : List ℕ) (hp : l.Pairwise (· < ·)) :
    (insertUniq x l).Pairwise (· < ·) := by
  induction l with
  | nil => simp [insertUniq]
  | cons y ys ih =>
    rw [List.pairwise_cons] at hp
    simp only [insertUniq]
    split_ifs with h1 h2
    · refine List.Pairwise.cons ?_ (List.Pairwise.cons hp.1 hp.2)
      intro z hz
      rcases List.mem_cons.mp hz with rfl | hz
      · exact h1
      · exact h1.trans (hp.1 z hz)
    · exact List.Pairwise.cons hp.1 hp.2
    · refine List.Pairwise.cons ?_ (ih hp.2)
      intro z hz
      rcases (mem_insertUniq x z ys).mp hz with rfl | hz
      · omega
      · exact hp.1 z hz

lemma sortDedup_pairwise (l : List ℕ) : (sortDedup l).Pairwise (· < ·) := by
  induction l with
  | nil => simp [sortDedup]
  | cons a t ih => exact pairwise_insertUniq a (sortDedup t) ih

lemma mem_sortDedup (a : ℕ) (l : List ℕ) : a ∈ sortDedup l ↔ a ∈ l := by
  induction l with
  | nil => simp [sortDedup]
  | cons b t ih =>
    show a ∈ insertUniq b (sortDedup t) ↔ _
    rw [mem_insertUniq, ih]
    simp [List.mem_cons]

lemma cellsFrom_props (maxVal : ℕ) :
    ∀ (ts : List ℕ) (lo : ℕ), ts.Pairwise (· < ·) →
    (∀ t ∈ ts, lo ≤ t ∧ t ≤ maxVal) →
    ∀ c ∈ cellsFrom maxVal lo ts,
      lo ≤ c.1 ∧ c.1 ≤ c.2 ∧ c.2 ≤ maxVal ∧ ∀ t ∈ ts, c.2 ≤ t ∨ t < c.1
  | [], lo, _, _, c, hc => by
    simp only [cellsFrom] at hc
    split_ifs at hc with h
    · rcases List.mem_singleton.mp hc with rfl
      exact ⟨le_refl _, h, le_refl _, by simp⟩
    · simp at hc
  | t :: ts, lo, hp, hb, c, hc => by
    rw [List.pairwise_cons] at hp
    rcases List.mem_cons.mp hc with rfl | hc
    · refine ⟨le_refl _, (hb t (by simp)).1, (hb t (by simp)).2, ?_⟩
      intro u hu
      rcases List.mem_cons.mp hu with rfl | hu
      · exact Or.inl (le_refl _)
      · exact Or.inl (le_of_lt (hp.1 u hu))
    · have hrec := cellsFrom_props maxVal ts (t + 1) hp.2
        (fun u hu => ⟨hp.1 u hu, (hb u (by simp [hu])).2⟩) c hc
      refine ⟨le_trans (Nat.le_succ_of_le (hb t (by simp)).1) hrec.1,
        hrec.2.1, hrec.2.2.1, ?_⟩
      intro u hu
      rcases List.mem_cons.mp hu with rfl | hu
      · exact Or.inr (Nat.lt_of_lt_of_le (Nat.lt_succ_self u) hrec.1)
      · exact hrec.2.2.2 u hu

lemma cellsFrom_cover (maxVal : ℕ) :
    ∀ (ts : List ℕ) (lo v : ℕ), lo ≤ v → v ≤ maxVal →
    ∃ c ∈ cellsFrom maxVal lo ts, c.1 ≤ v ∧ v ≤ c.2
  | [], lo, v, h1, h2 => by
    refine ⟨(lo, maxVal), ?_, h1, h2⟩
    simp [cellsFrom, le_trans h1 h2]
  | t :: ts, lo, v, h1, h2 => by
    by_cases hv : v ≤ t
    · exact ⟨(lo, t), by simp [cellsFrom], h1, hv⟩
    · obtain ⟨c, hc, hc1, hc2⟩ := cellsFrom_cover maxVal ts (t + 1) v (by omega) h2
      exact ⟨c, by simp [cellsFrom, hc], hc1, hc2⟩

lemma nodesAtDepth_zero (tr : DecisionNode) : nodesAtDepth tr 0 = [tr] := by
  cases tr <;> rfl

lemma nodeId_mem_allIds :
    ∀ (tr : DecisionNode) (d : ℕ) (m : DecisionNode),
      m ∈ nodesAtDepth tr d → nodeId m ∈ allIds tr
  | tr, 0, m, hm => by
    have hme : m = tr := by simpa [nodesAtDepth_zero] using hm
    subst hme
    cases m <;> simp [allIds, nodeId]
  | .leaf i c, d + 1, m, hm => by simp [nodesAtDepth] at hm
  | .internal i f t l r, d + 1, m, hm => by
    simp only [nodesAtDepth, List.mem_append] at hm
    simp only [allIds, List.mem_cons, List.mem_append]
    rcases hm with h | h
    · exact Or.inr (Or.inl (nodeId_mem_allIds l d m h))
    · exact Or.inr (Or.inr (nodeId_mem_allIds r d m h))

lemma ids_inj_across_depths :
    ∀ (tr : DecisionNode), (allIds tr).Nodup →
    ∀ (d1 d2 : ℕ), d1 ≤ d2 →
    ∀ a, a ∈ nodesAtDepth tr d1 → ∀ b, b ∈ nodesAtDepth tr d2 →
    nodeId a = nodeId b → d1 = d2 ∧ a = b
  | .leaf i c, _, d1, d2, hle, a, ha, b, hb, _ => by
    cases d2 with
    | zero =>
      have hd1 : d1 = 0 := Nat.le_zero.mp hle
      subst hd1
      have ha2 : a = .leaf i c := by simpa [nodesAtDepth_zero] using ha
      have hb2 : b = .leaf i c := by simpa [nodesAtDepth_zero] using hb
      exact ⟨rfl, ha2.trans hb2.symm⟩
    | succ e => simp [nodesAtDepth] at hb
  | .internal i f t l r, hnd, d1, d2, hle, a, ha, b, hb, heq => by
    rw [allIds, List.nodup_cons, List.nodup_append] at hnd
    obtain ⟨hi, hndl, hndr, hdisj⟩ := hnd
    cases d2 with
    | zero =>
      have hd1 : d1 = 0 := Nat.le_zero.mp hle
      subst hd1
      have ha2 : a = .internal i f t l r := by simpa [nodesAtDepth_zero] using ha
      have hb2 : b = .internal i f t l r := by simpa [nodesAtDepth_zero] using hb
      exact ⟨rfl, ha2.trans hb2.symm⟩
    | succ e2 =>
      have hbmem : b ∈ nodesAtDepth l e2 ∨ b ∈ nodesAtDepth r e2 := by
        simpa [nodesAtDepth] using hb
      cases d1 with
      | zero =>
        have ha2 : a = .internal i f t l r := by simpa [nodesAtDepth_zero] using ha
        exfalso
        have hia : nodeId a = i := by rw [ha2]; rfl
        apply hi
        rw [show i = nodeId b from by rw [← heq, hia]]
        rcases hbmem with h | h
        · exact List.mem_append.mpr (Or.inl (nodeId_mem_allIds l e2 b h))
        · exact List.mem_append.mpr (Or.inr (nodeId_mem_allIds r e2 b h))
      | succ e1 =>
        have hamem : a ∈ nodesAtDepth l e1 ∨ a ∈ nodesAtDepth r e1 := by
          simpa [nodesAtDepth] using ha
        have hle2 : e1 ≤ e2 := Nat.succ_le_succ_iff.mp hle
        rcases hamem with hal | har
        · rcases hbmem with hbl | hbr
          · obtain ⟨hd, hab⟩ := ids_inj_across_depths l hndl e1 e2 hle2 a hal b hbl heq
            exact ⟨by rw [hd], hab⟩
          · exfalso
            have h2 := nodeId_mem_allIds r e2 b hbr
            rw [← heq] at h2
            exact hdisj (nodeId_mem_allIds l e1 a hal) h2
        · rcases hbmem with hbl | hbr
          · exfalso
            have h2 := nodeId_mem_allIds l e2 b hbl
            rw [← heq] at h2
            exact hdisj h2 (nodeId_mem_allIds r e1 a har)
          · obtain ⟨hd, hab⟩ := ids_inj_across_depths r hndr e1 e2 hle2 a har b hbr heq
            exact ⟨by rw [hd], hab⟩

lemma nodesAtDepth_id_inj (tr : DecisionNode) (hnd : (allIds tr).Nodup) (d : ℕ)
    (a b : DecisionNode) (ha : a ∈ nodesAtDepth tr d) (hb : b ∈ nodesAtDepth tr d)
    (heq : nodeId a = nodeId b) : a = b :=
  (ids_inj_across_depths tr hnd d d (le_refl d) a ha b hb heq).2

lemma rulesForNode_matchNode (maxVal : ℕ) (ts : List ℕ) (n : DecisionNode) :
    ∀ ru ∈ rulesForNode maxVal ts n,
      ru.matchNode = nodeId n ∧ ru.featureIndex = featOf n := by
  cases n with
  | leaf i c => simp [rulesForNode]
  | internal i f t l r =>
    intro ru hru
    simp only [rulesForNode, List.mem_map] at hru
    obtain ⟨c, _, rfl⟩ := hru
    exact ⟨rfl, rfl⟩

lemma rulesForNode_sound (maxVal : ℕ) (ts : List ℕ) (i f t : ℕ)
    (l r : DecisionNode) (hp : ts.Pairwise (· < ·))
    (hb : ∀ u ∈ ts, u ≤ maxVal) (hts : t ∈ ts) (v : ℕ) :
    ∀ ru ∈ rulesForNode maxVal ts (.internal i f t l r),
      ru.low ≤ v → v ≤ ru.high →
      ru.result = if v ≤ t then nodeId l else nodeId r := by
  intro ru hru h1 h2
  simp only [rulesForNode, List.mem_map] at hru
  obtain ⟨c, hc, rfl⟩ := hru
  dsimp only at h1 h2 ⊢
  have hprops := cellsFrom_props maxVal ts 0 hp
    (fun u hu => ⟨Nat.zero_le u, hb u hu⟩) c hc
  rcases hprops.2.2.2 t hts with hcase | hcase
  · rw [if_pos hcase, if_pos (le_trans h2 hcase)]
  · have hc12 := hprops.2.1
    rw [if_neg (by omega), if_neg (by omega)]

lemma rulesForNode_exists (maxVal : ℕ) (ts : List ℕ) (i f t : ℕ)
    (l r : DecisionNode) (v : ℕ) (hv : v ≤ maxVal) :
    ∃ ru ∈ rulesForNode maxVal ts (.internal i f t l r),
      ru.low ≤ v ∧ v ≤ ru.high := by
  obtain ⟨c, hc, h1, h2⟩ := cellsFrom_cover maxVal ts 0 v (Nat.zero_le v) hv
  exact ⟨⟨c.1, c.2, i, f, if c.2 ≤ t then nodeId l else nodeId r⟩,
    List.mem_map.mpr ⟨c, hc, rfl⟩, h1, h2⟩

lemma mem_rulesAtDepth (maxVal : ℕ) (tr : DecisionNode) (d : ℕ) (ru : RangeRule)
    (h : ru ∈ rulesAtDepth maxVal tr d) :
    ∃ m ∈ internalsAt tr d, ru ∈ rulesForNode maxVal
      (sortDedup (((internalsAt tr d).filter fun n => featOf n == featOf m).map thrOf)) m := by
  simp only [rulesAtDepth, List.mem_flatMap] at h
  obtain ⟨f, hf, m, hm, hru⟩ := h
  have hmf : featOf m = f := by
    have := (List.mem_filter.mp hm).2
    simpa using this
  refine ⟨m, (List.mem_filter.mp hm).1, ?_⟩
  rw [hmf]
  exact hru

lemma rulesAtDepth_node_mem (maxVal : ℕ) (tr : DecisionNode) (d : ℕ)
    (m : DecisionNode) (hm : m ∈ internalsAt tr d) (ru : RangeRule)
    (hru : ru ∈ rulesForNode maxVal
      (sortDedup (((internalsAt tr d).filter fun n => featOf n == featOf m).map thrOf)) m) :
    ru ∈ rulesAtDepth maxVal tr d := by
  simp only [rulesAtDepth, List.mem_flatMap]
  exact ⟨featOf m, List.mem_dedup.mpr (List.mem_map_of_mem featOf hm),
    m, List.mem_filter.mpr ⟨hm, by simp⟩, hru⟩

lemma thresholdsOkB_at_depth (bw : ℕ) :
    ∀ (tr : DecisionNode), thresholdsOkB bw tr = true →
    ∀ (d : ℕ) (m : DecisionNode), m ∈ nodesAtDepth tr d →
      thresholdsOkB bw m = true
  | tr, hok, 0, m, hm => by
    have hme : m = tr := by simpa [nodesAtDepth_zero] using hm
    subst hme
    exact hok
  | .leaf i c, _, d + 1, m, hm => by simp [nodesAtDepth] at hm
  | .internal i f t l r, hok, d + 1, m, hm => by
    simp only [thresholdsOkB, Bool.and_eq_true] at hok
    simp only [nodesAtDepth, List.mem_append] at hm
    rcases hm with h | h
    · exact thresholdsOkB_at_depth bw l hok.1.2 d m h
    · exact thresholdsOkB_at_depth bw r hok.2 d m h

lemma ok_internal_thr (bw : ℕ) (m : DecisionNode) (hint : isInternal m = true)
    (hok : thresholdsOkB bw m = true) : thrOf m ≤ 2 ^ bw - 1 := by
  cases m with
  | leaf i c => simp [isInternal] at hint
  | internal i f t l r =>
    simp only [thresholdsOkB, Bool.and_eq_true, decide_eq_true_eq] at hok
    exact hok.1.1

lemma actionMap_fst_mem :
    ∀ (tr : DecisionNode) (e : ℕ × ℕ), e ∈ actionMapOf tr → e.1 ∈ allIds tr
  | .leaf i c, e, he => by
    simp only [actionMapOf, List.mem_singleton] at he
    simp [allIds, he]
  | .internal i f t l r, e, he => by
    simp only [actionMapOf, List.mem_append] at he
    simp only [allIds, List.mem_cons, List.mem_append]
    rcases he with h | h
    · exact Or.inr (Or.inl (actionMap_fst_mem l e h))
    · exact Or.inr (Or.inr (actionMap_fst_mem r e h))

lemma actionMap_nodup :
    ∀ (tr : DecisionNode), (allIds tr).Nodup →
      ((actionMapOf tr).map Prod.fst).Nodup
  | .leaf i c, _ => by simp [actionMapOf]
  | .internal i f t l r, hnd => by
    rw [allIds, List.nodup_cons, List.nodup_append] at hnd
    obtain ⟨_, hl, hr, hdisj⟩ := hnd
    simp only [actionMapOf, List.map_append]
    rw [List.nodup_append]
    refine ⟨actionMap_nodup l hl, actionMap_nodup r hr, ?_⟩
    intro k hkl hkr
    obtain ⟨e1, he1, rfl⟩ := List.mem_map.mp hkl
    obtain ⟨e2, he2, heq⟩ := List.mem_map.mp hkr
    exact hdisj (actionMap_fst_mem l e1 he1) (heq ▸ actionMap_fst_mem r e2 he2)

/-- One decision applied to a node: leaves stay, internal nodes step into
the child chosen by the threshold comparison. -/
def step1 (row : ℕ → ℕ) : DecisionNode → DecisionNode
  | .leaf i c => .leaf i c
  | .internal _ f t l r => if row f ≤ t then l else r

lemma descend_succ (row : ℕ → ℕ) :
    ∀ (d : ℕ) (tr : DecisionNode),
      descend row (d + 1) tr = step1 row (descend row d tr)
  | 0, .leaf i c => rfl
  | 0, .internal i f t l r => rfl
  | d + 1, .leaf i c => rfl
  | d + 1, .internal i f t l r => by
    show descend row (d + 1) (if row f ≤ t then l else r) =
      step1 row (descend row d (if row f ≤ t then l else r))
    exact descend_succ row d (if row f ≤ t then l else r)

lemma descend_mem (row : ℕ → ℕ) :
    ∀ (d : ℕ) (tr : DecisionNode),
      ∃ e ≤ d, descend row d tr ∈ nodesAtDepth tr e ∧
        (e = d ∨ isInternal (descend row d tr) = false)
  | 0, tr => ⟨0, le_refl 0, by simp [nodesAtDepth_zero, descend], Or.inl rfl⟩
  | d + 1, .leaf i c =>
    ⟨0, Nat.zero_le _, by simp [nodesAtDepth_zero, descend],
      Or.inr (by simp [descend, isInternal])⟩
  | d + 1, .internal i f t l r => by
    by_cases hrow : row f ≤ t
    · obtain ⟨e, he, hmem, hcase⟩ := descend_mem row d l
      refine ⟨e + 1, Nat.succ_le_succ he, ?_, ?_⟩
      · simp only [descend, if_pos hrow, nodesAtDepth, List.mem_append]
        exact Or.inl hmem
      · rcases hcase with rfl | hleaf
        · exact Or.inl rfl
        · exact Or.inr (by simpa [descend, if_pos hrow] using hleaf)
    · obtain ⟨e, he, hmem, hcase⟩ := descend_mem row d r
      refine ⟨e + 1, Nat.succ_le_succ he, ?_, ?_⟩
      · simp only [descend, if_neg hrow, nodesAtDepth, List.mem_append]
        exact Or.inr hmem
      · rcases hcase with rfl | hleaf
        · exact Or.inl rfl
        · exact Or.inr (by simpa [descend, if_neg hrow] using hleaf)

lemma descend_ge_depth (row : ℕ → ℕ) :
    ∀ (tr : DecisionNode) (d : ℕ), depth tr ≤ d →
      isInternal (descend row d tr) = false
  | .leaf i c, d, _ => by cases d <;> simp [descend, isInternal]
  | .internal i f t l r, d, hd => by
    cases d with
    | zero => simp [depth] at hd
    | succ e =>
      have he : max (depth l) (depth r) ≤ e := by
        have : max (depth l) (depth r) + 1 ≤ e + 1 := by simpa [depth] using hd
        omega
      by_cases hrow : row f ≤ t
      · simp only [descend, if_pos hrow]
        exact descend_ge_depth row l e (le_trans (le_max_left _ _) he)
      · simp only [descend, if_neg hrow]
        exact descend_ge_depth row r e (le_trans (le_max_right _ _) he)

lemma eval_eq_leafClass (row : ℕ → ℕ) :
    ∀ (d : ℕ) (tr : DecisionNode), isInternal (descend row d tr) = false →
      evalTree tr row = leafClass (descend row d tr)
  | 0, tr, h => by
    cases tr with
    | leaf i c => rfl
    | internal i f t l r => simp [descend, isInternal] at h
  | d + 1, .leaf i c, _ => rfl
  | d + 1, .internal i f t l r, h => by
    by_cases hrow : row f ≤ t
    · have := eval_eq_leafClass row d l (by simpa [descend, if_pos hrow] using h)
      simpa [evalTree, if_pos hrow, descend] using this
    · have := eval_eq_leafClass row d r (by simpa [descend, if_neg hrow] using h)
      simpa [evalTree, if_neg hrow, descend] using this

lemma actionMap_mem_descend (row : ℕ → ℕ) :
    ∀ (d : ℕ) (tr : DecisionNode), isInternal (descend row d tr) = false →
      (nodeId (descend row d tr), leafClass (descend row d tr)) ∈ actionMapOf tr
  | 0, tr, h => by
    cases tr with
    | leaf i c => simp [descend, actionMapOf, nodeId, leafClass]
    | internal i f t l r => simp [descend, isInternal] at h
  | d + 1, .leaf i c, _ => by simp [descend, actionMapOf, nodeId, leafClass]
  | d + 1, .internal i f t l r, h => by
    simp only [actionMapOf, List.mem_append]
    by_cases hrow : row f ≤ t
    · have := actionMap_mem_descend row d l (by simpa [descend, if_pos hrow] using h)
      exact Or.inl (by simpa [descend, if_pos hrow] using this)
    · have := actionMap_mem_descend row d r (by simpa [descend, if_neg hrow] using h)
      exact Or.inr (by simpa [descend, if_neg hrow] using this)

lemma step_tableAt (bw : ℕ) (tr : DecisionNode) (row : ℕ → ℕ)
    (hnd : (allIds tr).Nodup) (hok : thresholdsOkB bw tr = true)
    (hrow : ∀ f, row f ≤ 2 ^ bw - 1) (d : ℕ) :
    stepTable row (nodeId (descend row d tr))
      ⟨d, rulesAtDepth (2 ^ bw - 1) tr d⟩ = nodeId (descend row (d + 1) tr) := by
  obtain ⟨e, he, hmem, hcase⟩ := descend_mem row d tr
  by_cases hint : isInternal (descend row d tr) = true
  · have hed : e = d := by
      rcases hcase with h | h
      · exact h
      · rw [hint] at h; exact absurd h (by simp)
    rw [hed] at hmem
    cases hD : descend row d tr with
    | leaf i c => rw [hD] at hint; simp [isInternal] at hint
    | internal i f t l r =>
      rw [hD] at hmem
      have hNin : (DecisionNode.internal i f t l r) ∈ internalsAt tr d :=
        List.mem_filter.mpr ⟨hmem, by simp [isInternal]⟩
      have hpw : (sortDedup (((internalsAt tr d).filter fun n =>
          featOf n == featOf (DecisionNode.internal i f t l r)).map
            thrOf)).Pairwise (· < ·) := sortDedup_pairwise _
      have htmem : t ∈ sortDedup (((internalsAt tr d).filter fun n =>
          featOf n == featOf (DecisionNode.internal i f t l r)).map thrOf) := by
        rw [mem_sortDedup]
        exact List.mem_map.mpr ⟨DecisionNode.internal i f t l r,
          List.mem_filter.mpr ⟨hNin, by simp⟩, rfl⟩
      have hbnd : ∀ u ∈ sortDedup (((internalsAt tr d).filter fun n =>
          featOf n == featOf (DecisionNode.internal i f t l r)).map thrOf),
          u ≤ 2 ^ bw - 1 := by
        intro u hu
        rw [mem_sortDedup] at hu
        obtain ⟨mm, hmm, rfl⟩ := List.mem_map.mp hu
        have h1 : mm ∈ internalsAt tr d := (List.mem_filter.mp hmm).1
        exact ok_internal_thr bw mm (List.mem_filter.mp h1).2
          (thresholdsOkB_at_depth bw tr hok d mm (List.mem_filter.mp h1).1)
      obtain ⟨ru0, hru0, hlo0, hhi0⟩ := rulesForNode_exists (2 ^ bw - 1)
        (sortDedup (((internalsAt tr d).filter fun n =>
          featOf n == featOf (DecisionNode.internal i f t l r)).map thrOf))
        i f t l r (row f) (hrow f)
      have hru0in : ru0 ∈ rulesAtDepth (2 ^ bw - 1) tr d :=
        rulesAtDepth_node_mem _ tr d _ hNin ru0 hru0
      have hmatch0 : ruleMatches row (nodeId (descend row d tr)) ru0 = true := by
        rw [hD]
        have hmn := rulesForNode_matchNode _ _ _ ru0 hru0
        simp only [ruleMatches, Bool.and_eq_true, beq_iff_eq, decide_eq_true_eq]
        refine ⟨⟨hmn.1, ?_⟩, ?_⟩
        · rw [hmn.2]; exact hlo0
        · rw [hmn.2]; exact hhi0
      cases hfind : (rulesAtDepth (2 ^ bw - 1) tr d).find?
          (ruleMatches row (nodeId (descend row d tr))) with
      | none =>
        rw [List.find?_eq_none] at hfind
        exact absurd hmatch0 (hfind ru0 hru0in)
      | some ru =>
        have hpred := List.find?_some hfind
        have hrumem := List.mem_of_find?_eq_some hfind
        obtain ⟨m, hm, hrufor⟩ := mem_rulesAtDepth _ tr d ru hrumem
        have hmn := rulesForNode_matchNode _ _ m ru hrufor
        have htok : ru.matchNode = nodeId (descend row d tr) := by
          simp only [ruleMatches, Bool.and_eq_true, beq_iff_eq] at hpred
          exact hpred.1.1
        have hmeq : m = DecisionNode.internal i f t l r := by
          apply nodesAtDepth_id_inj tr hnd d m _ (List.mem_filter.mp hm).1 hmem
          rw [← hmn.1, htok, hD]
        rw [hmeq] at hrufor
        have hlow : ru.low ≤ row f := by
          simp only [ruleMatches, Bool.and_eq_true, decide_eq_true_eq] at hpred
          have h2 := hpred.1.2
          rw [hmn.2, hmeq] at h2
          exact h2
        have hhigh : row f ≤ ru.high := by
          simp only [ruleMatches, Bool.and_eq_true, decide_eq_true_eq] at hpred
          have h2 := hpred.2
          rw [hmn.2, hmeq] at h2
          exact h2
        have hres := rulesForNode_sound (2 ^ bw - 1)
          (sortDedup (((internalsAt tr d).filter fun n =>
            featOf n == featOf (DecisionNode.internal i f t l r)).map thrOf))
          i f t l r hpw hbnd htmem (row f) ru hrufor hlow hhigh
        rw [hD] at hfind
        rw [descend_succ row d tr, hD, stepTable]
        dsimp only
        rw [hfind]
        by_cases hrf : row f ≤ t
        · simp [hres, step1, if_pos hrf]
        · simp [hres, step1, if_neg hrf]
  · have hleaf : isInternal (descend row d tr) = false := by
      revert hint
      cases isInternal (descend row d tr) <;> simp
    have hstay : descend row (d + 1) tr = descend row d tr := by
      rw [descend_succ]
      cases hD : descend row d tr with
      | leaf i c => rfl
      | internal i f t l r => rw [hD] at hleaf; simp [isInternal] at hleaf
    rw [hstay]
    have hnone : (rulesAtDepth (2 ^ bw - 1) tr d).find?
        (ruleMatches row (nodeId (descend row d tr))) = none := by
      rw [List.find?_eq_none]
      intro ru hru hmatch
      obtain ⟨m, hm, hrufor⟩ := mem_rulesAtDepth _ tr d ru hru
      have hmn := (rulesForNode_matchNode _ _ m ru hrufor).1
      have htok : ru.matchNode = nodeId (descend row d tr) := by
        simp only [ruleMatches, Bool.and_eq_true, beq_iff_eq] at hmatch
        exact hmatch.1.1
      have hmmem := (List.mem_filter.mp hm).1
      have hmint := (List.mem_filter.mp hm).2
      obtain ⟨hde, habe⟩ := ids_inj_across_depths tr hnd e d he
        (descend row d tr) hmem m hmmem (by rw [← htok, hmn])
      rw [← habe] at hmint
      rw [hleaf] at hmint
      simp at hmint
    simp [stepTable, hnone]

lemma runTables_range (bw : ℕ) (tr : DecisionNode) (row : ℕ → ℕ)
    (hnd : (allIds tr).Nodup) (hok : thresholdsOkB bw tr = true)
    (hrow : ∀ f, row f ≤ 2 ^ bw - 1) (k : ℕ) :
    runTables ((List.range k).map fun d =>
        (⟨d, rulesAtDepth (2 ^ bw - 1) tr d⟩ : MatchActionTable)) row (nodeId tr) =
      nodeId (descend row k tr) := by
  induction k with
  | zero => rfl
  | succ n ih =>
    rw [List.range_succ, List.map_append, runTables, List.foldl_append]
    have hin : List.foldl (stepTable row) (nodeId tr) ((List.range n).map fun d =>
        (⟨d, rulesAtDepth (2 ^ bw - 1) tr d⟩ : MatchActionTable)) =
        nodeId (descend row n tr) := ih
    rw [hin]
    simp only [List.map_cons, List.map_nil, List.foldl_cons, List.foldl_nil]
    exact step_tableAt bw tr row hnd hok hrow n

/-- C1: for every compiled pipeline and quantized row, threading the
current-node token through the stage tables resolves in the action map to
exactly the class the original tree computes on that row: the pipeline
refines direct tree evaluation with quantized thresholds. -/
theorem claim_pipeline_tree_equiv (bw maxStages : ℕ) (tr : DecisionNode)
    (row : ℕ → ℕ) (p : Pipeline) (hwf : WFTree bw tr)
    (hrow : ∀ f, row f ≤ 2 ^ bw - 1)
    (hc : compile bw maxStages tr = Except.ok p) :
    runPipeline p row (nodeId tr) = some (evalTree tr row) := by
  obtain ⟨hnd, hok⟩ := hwf
  rw [compile, if_neg (by simp [hok])] at hc
  by_cases hd : maxStages < depth tr
  · rw [if_pos hd] at hc
    exact absurd hc (by simp)
  · rw [if_neg hd] at hc
    injection hc with hp
    subst hp
    rw [runPipeline]
    dsimp only
    rw [runTables_range bw tr row hnd hok hrow (depth tr)]
    have hleaf : isInternal (descend row (depth tr) tr) = false :=
      descend_ge_depth row tr (depth tr) (le_refl _)
    have hmemA : (nodeId (descend row (depth tr) tr),
        leafClass (descend row (depth tr) tr)) ∈ actionMapOf tr :=
      actionMap_mem_descend row (depth tr) tr hleaf
    have heval : evalTree tr row = leafClass (descend row (depth tr) tr) :=
      eval_eq_leafClass row (depth tr) tr hleaf
    cases hfind : (actionMapOf tr).find?
        (fun e => e.1 == nodeId (descend row (depth tr) tr)) with
    | none =>
      rw [List.find?_eq_none] at hfind
      exact absurd (by simp) (hfind _ hmemA)
    | some e =>
      have hpred := List.find?_some hfind
      have hmeme := List.mem_of_find?_eq_some hfind
      have he1 : e.1 = nodeId (descend row (depth tr) tr) := by simpa using hpred
      have heq : e = (nodeId (descend row (depth tr) tr),
          leafClass (descend row (depth tr) tr)) :=
        List.inj_on_of_nodup_map (actionMap_nodup tr hnd) hmeme hmemA (by simp [he1])
      rw [heq, heval]
      rfl

/-- C2: for a well-formed tree, compilation inside the stage budget yields
exactly depth-many match-action tables, and a tree deeper than the budget is
rejected with StageBudgetExceeded reporting the offending depth and the
budget. -/
theorem claim_stage_budget (bw maxStages : ℕ) (tr : DecisionNode)
    (hwf : WFTree bw tr) :
    (depth tr ≤ maxStages →
      compile bw maxStages tr = Except.ok
        ⟨(List.range (depth tr)).map fun d =>
          (⟨d, rulesAtDepth (2 ^ bw - 1) tr d⟩ : MatchActionTable), actionMapOf tr⟩ ∧
      ((List.range (depth tr)).map fun d =>
        (⟨d, rulesAtDepth (2 ^ bw - 1) tr d⟩ : MatchActionTable)).length = depth tr) ∧
    (maxStages < depth tr →
      compile bw maxStages tr =
        Except.error (CompileError.stageBudgetExceeded (depth tr) maxStages)) := by
  constructor
  · intro h
    constructor
    · rw [compile, if_neg (by simp [hwf.2]), if_neg (not_lt.mpr h)]
    · simp
  · intro h
    rw [compile, if_neg (by simp [hwf.2]), if_pos h]

/-- C9: a single-split tree on one feature at quantized threshold t with bit
width 8 compiles to one table with exactly two ranges, [0, t] to the left
child and [t + 1, 255] to the right child, so a row at t classifies as the
left leaf and a row at t + 1 as the right leaf. -/
theorem claim_single_split (i j k f t c0 c1 maxStages : ℕ)
    (ht : t < 255) (hst : 1 ≤ maxStages) (hjk : j ≠ k) :
    compile 8 maxStages (.internal i f t (.leaf j c0) (.leaf k c1)) =
      Except.ok ⟨[⟨0, [⟨0, t, i, f, j⟩, ⟨t + 1, 255, i, f, k⟩]⟩], [(j, c0), (k, c1)]⟩ ∧
    runPipeline ⟨[⟨0, [⟨0, t, i, f, j⟩, ⟨t + 1, 255, i, f, k⟩]⟩], [(j, c0), (k, c1)]⟩
      (fun _ => t) i = some c0 ∧
    runPipeline ⟨[⟨0, [⟨0, t, i, f, j⟩, ⟨t + 1, 255, i, f, k⟩]⟩], [(j, c0), (k, c1)]⟩
      (fun _ => t + 1) i = some c1 := by
  have h2 : t + 1 ≤ 255 := ht
  have h3 : ¬ (255 ≤ t) := by omega
  have h4 : ¬ (t + 1 ≤ t) := by omega
  have h5 : (j == k) = false := by simp [hjk]
  have hrules : rulesAtDepth 255 (.internal i f t (.leaf j c0) (.leaf k c1)) 0 =
      [⟨0, t, i, f, j⟩, ⟨t + 1, 255, i, f, k⟩] := by
    simp [rulesAtDepth, internalsAt, nodesAtDepth_zero, isInternal, featOf, thrOf,
      sortDedup, insertUniq, rulesForNode, cellsFrom, nodeId, h2, h3]
  refine ⟨?_, ?_, ?_⟩
  · rw [compile, if_neg ?g1, if_neg ?g2]
    case g1 =>
      simp [thresholdsOkB, show ((2 : ℕ) ^ 8 - 1) = 255 from rfl, le_of_lt ht]
    case g2 =>
      rw [show depth (.internal i f t (.leaf j c0) (.leaf k c1)) = 1 from rfl]
      omega
    rw [show depth (.internal i f t (.leaf j c0) (.leaf k c1)) = 1 from rfl,
      show List.range 1 = [0] from rfl]
    simp only [show ((2 : ℕ) ^ 8 - 1) = 255 from rfl, List.map_cons,
      List.map_nil, hrules]
    rfl
  · simp [runPipeline, runTables, stepTable, ruleMatches]
  · simp [runPipeline, runTables, stepTable, ruleMatches, h4, h5, h2]

/-- A concrete two-stage tree exercising the compiler theorems. -/
def sampleTree : DecisionNode :=
  .internal 1 0 10 (.internal 2 1 5 (.leaf 3 0) (.leaf 4 1)) (.leaf 5 1)

/-- The pipeline the compiler emits for sampleTree at bit width 8. -/
def samplePipeline : Pipeline :=
  ⟨[⟨0, [⟨0, 10, 1, 0, 2⟩, ⟨11, 255, 1, 0, 5⟩]⟩,
    ⟨1, [⟨0, 5, 2, 1, 3⟩, ⟨6, 255, 2, 1, 4⟩]⟩],
   [(3, 0), (4, 1), (5, 1)]⟩

theorem claim_pipeline_tree_equiv_wit :
    runPipeline samplePipeline (fun _ => 7) (nodeId sampleTree) =
      some (evalTree sampleTree (fun _ => 7)) :=
  claim_pipeline_tree_equiv 8 5 sampleTree (fun _ => 7) samplePipeline
    ⟨by decide, by decide⟩ (fun _ => by norm_num) rfl

theorem claim_stage_budget_wit :
    (compile 8 5 sampleTree = Except.ok
        ⟨(List.range (depth sampleTree)).map fun d =>
          (⟨d, rulesAtDepth (2 ^ 8 - 1) sampleTree d⟩ : MatchActionTable),
         actionMapOf sampleTree⟩ ∧
      ((List.range (depth sampleTree)).map fun d =>
        (⟨d, rulesAtDepth (2 ^ 8 - 1) sampleTree d⟩ : MatchActionTable)).length =
        depth sampleTree) ∧
    compile 8 1 sampleTree =
      Except.error (CompileError.stageBudgetExceeded (depth sampleTree) 1) :=
  ⟨(claim_stage_budget 8 5 sampleTree ⟨by decide, by decide⟩).1 (by decide),
   (claim_stage_budget 8 1 sampleTree ⟨by decide, by decide⟩).2 (by decide)⟩

theorem claim_single_split_wit :
    compile 8 5 (.internal 1 0 64 (.leaf 2 0) (.leaf 3 1)) =
      Except.ok ⟨[⟨0, [⟨0, 64, 1, 0, 2⟩, ⟨64 + 1, 255, 1, 0, 3⟩]⟩], [(2, 0), (3, 1)]⟩ ∧
    runPipeline ⟨[⟨0, [⟨0, 64, 1, 0, 2⟩, ⟨64 + 1, 255, 1, 0, 3⟩]⟩], [(2, 0), (3, 1)]⟩
      (fun _ => 64) 1 = some 0 ∧
    runPipeline ⟨[⟨0, [⟨0, 64, 1, 0, 2⟩, ⟨64 + 1, 255, 1, 0, 3⟩]⟩], [(2, 0), (3, 1)]⟩
      (fun _ => 64 + 1) 1 = some 1 :=
  claim_single_split 1 2 3 0 64 0 1 5 (by norm_num) (by norm_num) (by norm_num)
